import Mathlib

/-!
Verification of the ChessBot engine core (chess_engine.py): the
depth-limited minimax search with alpha-beta pruning (Engine.minimax) and
the static evaluator (Engine.evaluate_board, Engine.mate,
Engine.square_score), embedded shallowly.

Modelling notes.

Scores: every numeric value the Python code manipulates is a multiple of
1/4 whose magnitude stays far below 2^50, hence IEEE doubles represent all
of them exactly and float arithmetic and comparisons coincide with exact
rational arithmetic.  The float infinities used as initial bounds are kept
as explicit points of an extended score type XScore with the evident
linear order.

The Position collaborator (the python-chess board) is modelled as a
finitely branching game tree: each node carries exactly the data the
engine reads from the board (the occupied squares with piece type and
piece colour, and the side to move) and the ordered list of successor
positions, one per legal move, in the enumeration order the board
supplies.  A move is identified by its index in that enumeration;
board.push(move) drives the board to the corresponding child position and
records the previous position for undo, board.pop() undoes the most
recent push.  legal_moves.count() == 0 corresponds to an empty child
list.
-/

namespace ChessBot

/-- Extended scores: the doubles the engine manipulates, namely minus
infinity, exactly-represented finite values, and plus infinity. -/
inductive XScore where
  | negInf : XScore
  | fin : ℚ → XScore
  | posInf : XScore
deriving DecidableEq

/-- Order embedding of XScore into the rationals with a bottom and a top
element adjoined; the order of XScore is pulled back along it. -/
def XScore.toE : XScore → WithBot (WithTop ℚ)
  | .negInf => ⊥
  | .fin q => ((q : WithTop ℚ) : WithBot (WithTop ℚ))
  | .posInf => ((⊤ : WithTop ℚ) : WithBot (WithTop ℚ))

instance : LinearOrder XScore :=
  LinearOrder.lift' XScore.toE (by
    intro a b h
    cases a <;> cases b <;> simp_all [XScore.toE])

/-- Piece kinds, as distinguished by board.piece_type_at. -/
inductive PieceType where
  | pawn | knight | bishop | rook | queen | king
deriving DecidableEq

/-- Colour of a side or of a piece (python-chess: WHITE = true,
BLACK = false). -/
abbrev Color := Bool

/-- What board.piece_map reports for one occupied square: the piece type
and the piece colour found there. -/
structure SquareOcc where
  pieceType : PieceType
  color : Color
deriving DecidableEq

/-- The Position collaborator as the engine observes it: the occupied
squares (board.piece_map), the side to move (board.turn) and the ordered
successor positions, one per legal move in the enumeration order supplied
by board.legal_moves; the move with index i leads to children[i]. -/
inductive Position where
  | node (pieces : List SquareOcc) (turn : Color) (children : List Position)

/-- Occupied squares of the position (board.piece_map). -/
def Position.pieces : Position → List SquareOcc
  | .node ps _ _ => ps

/-- Side to move (board.turn). -/
def Position.turn : Position → Color
  | .node _ t _ => t

/-- Successor positions, one per legal move, in enumeration order
(board.legal_moves). -/
def Position.children : Position → List Position
  | .node _ _ cs => cs

/-- Translation of Engine.square_score: the value of one occupied square,
negated when the piece colour differs from the engine colour. -/
def square_score (color : Color) (sq : SquareOcc) : ℚ :=
  let rv : ℚ :=
    if sq.pieceType = PieceType.pawn then 1
    else if sq.pieceType = PieceType.knight then 3
    else if sq.pieceType = PieceType.bishop then 3.25
    else if sq.pieceType = PieceType.rook then 5
    else if sq.pieceType = PieceType.queen then 9
    else if sq.pieceType = PieceType.king then 20
    else 0
  if sq.color ≠ color then -1 * rv else rv

/-- Translation of Engine.mate: the terminal bonus, added when the
position has no legal move. -/
def mate (color : Color) (p : Position) : ℚ :=
  if p.children.length = 0 then
    if p.turn = color then -9999 else 9999
  else 0

/-- The material loop of Engine.evaluate_board: the sum of square_score
over the occupied squares. -/
def material (color : Color) (p : Position) : ℚ :=
  (p.pieces.map (square_score color)).sum

/-- Translation of Engine.evaluate_board: material sum plus mate bonus. -/
def evaluate_board (color : Color) (p : Position) : ℚ :=
  material color p + mate color p

mutual

/-- Translation of Engine.minimax: depth-limited minimax with alpha-beta
pruning, returning the pair (score, best move), a move being identified by
its index in the legal-move enumeration of the position searched. -/
def minimax (c : Color) (depth : Int) (alpha beta : XScore) (bot_turn : Bool)
    (p : Position) : XScore × Option Nat :=
  if depth = 0 ∨ p.children.length = 0 then
    (XScore.fin (evaluate_board c p), none)
  else if bot_turn then
    maxLoop c depth beta p p.children
      (fun m hmem => by
        cases p with
        | node ps t cs =>
          simp only [Position.children] at hmem
          have h1 : sizeOf m < sizeOf cs := List.sizeOf_lt_of_mem hmem
          simp only [Position.node.sizeOf_spec]
          omega)
      alpha XScore.negInf none 0
  else
    minLoop c depth alpha p p.children
      (fun m hmem => by
        cases p with
        | node ps t cs =>
          simp only [Position.children] at hmem
          have h1 : sizeOf m < sizeOf cs := List.sizeOf_lt_of_mem hmem
          simp only [Position.node.sizeOf_spec]
          omega)
      beta XScore.posInf none 0
termination_by (sizeOf p, 1, 0)
decreasing_by
  · exact Prod.Lex.right _ (Prod.Lex.left _ _ Nat.zero_lt_one)
  · exact Prod.Lex.right _ (Prod.Lex.left _ _ Nat.zero_lt_one)

/-- The for-loop of the maximizing branch of Engine.minimax; alpha, the
running best score and best move are threaded exactly as the Python loop
does, idx is the index of the next move in the enumeration, and the loop
is abandoned at the alpha >= beta cutoff. -/
def maxLoop (c : Color) (depth : Int) (beta : XScore) (parent : Position)
    (moves : List Position) (hm : ∀ m ∈ moves, sizeOf m < sizeOf parent)
    (alpha max_value : XScore) (best_move : Option Nat) (idx : Nat) :
    XScore × Option Nat :=
  match moves with
  | [] => (max_value, best_move)
  | ch :: rest =>
    let score := (minimax c (depth - 1) alpha beta false ch).1
    let max_value' := if score > max_value then score else max_value
    let best_move' := if score > max_value then some idx else best_move
    let alpha' := max alpha score
    if alpha' ≥ beta then (max_value', best_move')
    else
      maxLoop c depth beta parent rest
        (fun m hmem => hm m (List.mem_cons_of_mem ch hmem))
        alpha' max_value' best_move' (idx + 1)
termination_by (sizeOf parent, 0, moves.length)
decreasing_by
  · exact Prod.Lex.left _ _ (hm ch (List.mem_cons_self ch rest))
  · exact Prod.Lex.right _ (Prod.Lex.right _ (Nat.lt_succ_self _))

/-- The for-loop of the minimizing branch of Engine.minimax, symmetric to
maxLoop with beta threaded downwards. -/
def minLoop (c : Color) (depth : Int) (alpha : XScore) (parent : Position)
    (moves : List Position) (hm : ∀ m ∈ moves, sizeOf m < sizeOf parent)
    (beta min_value : XScore) (best_move : Option Nat) (idx : Nat) :
    XScore × Option Nat :=
  match moves with
  | [] => (min_value, best_move)
  | ch :: rest =>
    let score := (minimax c (depth - 1) alpha beta true ch).1
    let min_value' := if score < min_value then score else min_value
    let best_move' := if score < min_value then some idx else best_move
    let beta' := min beta score
    if alpha ≥ beta' then (min_value', best_move')
    else
      minLoop c depth alpha parent rest
        (fun m hmem => hm m (List.mem_cons_of_mem ch hmem))
        beta' min_value' best_move' (idx + 1)
termination_by (sizeOf parent, 0, moves.length)
decreasing_by
  · exact Prod.Lex.left _ _ (hm ch (List.mem_cons_self ch rest))
  · exact Prod.Lex.right _ (Prod.Lex.right _ (Nat.lt_succ_self _))

end

/-- Modelled from the spec: the unpruned, exhaustive minimax search of the
same game tree to the same depth, with evaluate_board at the leaves and no
cutoffs, against which the alpha-beta search is compared. -/
def minimax_plain (c : Color) (depth : Int) (bot_turn : Bool) (p : Position) :
    XScore :=
  if depth = 0 ∨ p.children.length = 0 then XScore.fin (evaluate_board c p)
  else if bot_turn then
    (p.children.attach.map fun ch =>
      minimax_plain c (depth - 1) false ch.val).foldl max XScore.negInf
  else
    (p.children.attach.map fun ch =>
      minimax_plain c (depth - 1) true ch.val).foldl min XScore.posInf
termination_by sizeOf p
decreasing_by
  all_goals
    cases p with
    | node ps t cs =>
      have hmem := ch.property
      simp only [Position.children] at hmem
      have h1 : sizeOf ch.val < sizeOf cs := List.sizeOf_lt_of_mem hmem
      simp only [Position.node.sizeOf_spec]
      omega

/-- First index at or after idx in the enumeration whose position has
value v under f; used to state the first-move-wins tie-break property. -/
def firstHit (f : Position → XScore) (v : XScore) : Nat → List Position → Option Nat
  | _, [] => none
  | i, ch :: rest => if f ch = v then some i else firstHit f v (i + 1) rest

/-- The mutable python-chess board as the search uses it: the current
position together with the stack of positions recorded by the pushes not
yet undone. -/
structure BoardSt where
  cur : Position
  stack : List Position

/-- Translation of board.push(move): the board moves to the position the
pushed move leads to, and the previous position is recorded for undo. -/
def BoardSt.push (st : BoardSt) (dest : Position) : BoardSt :=
  ⟨dest, st.cur :: st.stack⟩

/-- Translation of board.pop(): undo the most recent push. python-chess
raises on an empty move stack; the search never pops an empty stack, and
the model leaves the state unchanged there. -/
def BoardSt.pop : BoardSt → BoardSt
  | ⟨_, q :: rest⟩ => ⟨q, rest⟩
  | ⟨q, []⟩ => ⟨q, []⟩

mutual

/-- Translation of Engine.minimax again, this time keeping the board state
explicit: the shared mutable board is threaded through every push, every
recursive call and every pop, and is returned alongside the result, so
that the push/pop discipline of the source is itself part of the model. -/
def minimaxS (c : Color) (depth : Int) (alpha beta : XScore) (bot_turn : Bool)
    (st : BoardSt) : (XScore × Option Nat) × BoardSt :=
  if depth = 0 ∨ st.cur.children.length = 0 then
    ((XScore.fin (evaluate_board c st.cur), none), st)
  else if bot_turn then
    maxLoopS c depth beta st.cur st.cur.children
      (fun m hmem => by
        cases hc : st.cur with
        | node ps t cs =>
          rw [hc] at hmem
          simp only [Position.children] at hmem
          have h1 : sizeOf m < sizeOf cs := List.sizeOf_lt_of_mem hmem
          simp only [Position.node.sizeOf_spec]
          omega)
      alpha XScore.negInf none 0 st
  else
    minLoopS c depth alpha st.cur st.cur.children
      (fun m hmem => by
        cases hc : st.cur with
        | node ps t cs =>
          rw [hc] at hmem
          simp only [Position.children] at hmem
          have h1 : sizeOf m < sizeOf cs := List.sizeOf_lt_of_mem hmem
          simp only [Position.node.sizeOf_spec]
          omega)
      beta XScore.posInf none 0 st
termination_by (sizeOf st.cur, 1, 0)
decreasing_by
  · exact Prod.Lex.right _ (Prod.Lex.left _ _ Nat.zero_lt_one)
  · exact Prod.Lex.right _ (Prod.Lex.left _ _ Nat.zero_lt_one)

/-- Stateful maximizing loop: board.push(move), recursive search on the
new state, board.pop() on whatever state the recursion left behind, then
the same updates and cutoff as maxLoop. -/
def maxLoopS (c : Color) (depth : Int) (beta : XScore) (parent : Position)
    (moves : List Position) (hm : ∀ m ∈ moves, sizeOf m < sizeOf parent)
    (alpha max_value : XScore) (best_move : Option Nat) (idx : Nat)
    (st : BoardSt) : (XScore × Option Nat) × BoardSt :=
  match moves with
  | [] => ((max_value, best_move), st)
  | ch :: rest =>
    let sub := minimaxS c (depth - 1) alpha beta false (st.push ch)
    let score := sub.1.1
    let st' := sub.2.pop
    let max_value' := if score > max_value then score else max_value
    let best_move' := if score > max_value then some idx else best_move
    let alpha' := max alpha score
    if alpha' ≥ beta then ((max_value', best_move'), st')
    else
      maxLoopS c depth beta parent rest
        (fun m hmem => hm m (List.mem_cons_of_mem ch hmem))
        alpha' max_value' best_move' (idx + 1) st'
termination_by (sizeOf parent, 0, moves.length)
decreasing_by
  · have h1 : sizeOf (BoardSt.push st ch).cur < sizeOf parent := by
      simp only [BoardSt.push]
      exact hm ch (List.mem_cons_self ch rest)
    exact Prod.Lex.left _ _ h1
  · exact Prod.Lex.right _ (Prod.Lex.right _ (Nat.lt_succ_self _))

/-- Stateful minimizing loop, symmetric to maxLoopS. -/
def minLoopS (c : Color) (depth : Int) (alpha : XScore) (parent : Position)
    (moves : List Position) (hm : ∀ m ∈ moves, sizeOf m < sizeOf parent)
    (beta min_value : XScore) (best_move : Option Nat) (idx : Nat)
    (st : BoardSt) : (XScore × Option Nat) × BoardSt :=
  match moves with
  | [] => ((min_value, best_move), st)
  | ch :: rest =>
    let sub := minimaxS c (depth - 1) alpha beta true (st.push ch)
    let score := sub.1.1
    let st' := sub.2.pop
    let min_value' := if score < min_value then score else min_value
    let best_move' := if score < min_value then some idx else best_move
    let beta' := min beta score
    if alpha ≥ beta' then ((min_value', best_move'), st')
    else
      minLoopS c depth alpha parent rest
        (fun m hmem => hm m (List.mem_cons_of_mem ch hmem))
        beta' min_value' best_move' (idx + 1) st'
termination_by (sizeOf parent, 0, moves.length)
decreasing_by
  · have h1 : sizeOf (BoardSt.push st ch).cur < sizeOf parent := by
      simp only [BoardSt.push]
      exact hm ch (List.mem_cons_self ch rest)
    exact Prod.Lex.left _ _ h1
  · exact Prod.Lex.right _ (Prod.Lex.right _ (Nat.lt_succ_self _))

end

/-! Concrete positions used to instantiate the theorems below. -/

/-- A terminal position: no pieces, engine side (white) to move, no legal
move. -/
def posEmpty : Position := .node [] true []

/-- A position with a single legal move, leading to posEmpty. -/
def posOne : Position := .node [] true [posEmpty]

/-- A position with two legal moves whose subtrees are identical, so both
moves score the same: the tie-break test position. -/
def posTie : Position := .node [] true [posEmpty, posEmpty]

/-- A small position holding material: a white pawn and a black king. -/
def posPieces : Position := .node [⟨.pawn, true⟩, ⟨.king, false⟩] true [posEmpty]

/-! Basic facts about the extended score order. -/

namespace XScore

theorem le_iff_toE {a b : XScore} : a ≤ b ↔ toE a ≤ toE b := Iff.rfl

theorem lt_iff_toE {a b : XScore} : a < b ↔ toE a < toE b := Iff.rfl

@[simp] theorem fin_le_fin {a b : ℚ} : fin a ≤ fin b ↔ a ≤ b := by
  rw [le_iff_toE]; simp [toE]

@[simp] theorem fin_lt_fin {a b : ℚ} : fin a < fin b ↔ a < b := by
  rw [lt_iff_toE]; simp [toE]

@[simp] theorem negInf_le (x : XScore) : negInf ≤ x := by
  rw [le_iff_toE]; exact bot_le

@[simp] theorem le_posInf (x : XScore) : x ≤ posInf := by
  rw [le_iff_toE]; cases x <;> simp [toE]

@[simp] theorem negInf_lt_fin (q : ℚ) : negInf < fin q := by
  rw [lt_iff_toE]; simp [toE]

@[simp] theorem fin_lt_posInf (q : ℚ) : fin q < posInf := by
  rw [lt_iff_toE]; simp only [toE, WithBot.coe_lt_coe]
  exact WithTop.coe_lt_top q

@[simp] theorem negInf_lt_posInf : negInf < posInf := by
  rw [lt_iff_toE]; simp [toE]

@[simp] theorem not_lt_negInf (x : XScore) : ¬ x < negInf :=
  not_lt_of_le (negInf_le x)

@[simp] theorem not_posInf_lt (x : XScore) : ¬ posInf < x :=
  not_lt_of_le (le_posInf x)

theorem le_negInf_iff {x : XScore} : x ≤ negInf ↔ x = negInf :=
  ⟨fun h => le_antisymm h (negInf_le x), fun h => h ▸ le_refl _⟩

theorem posInf_le_iff {x : XScore} : posInf ≤ x ↔ x = posInf :=
  ⟨fun h => le_antisymm (le_posInf x) h, fun h => h ▸ le_refl _⟩

theorem negInf_lt_iff {x : XScore} : negInf < x ↔ x ≠ negInf := by
  constructor
  · intro h he; rw [he] at h; exact lt_irrefl _ h
  · intro h; exact lt_of_le_of_ne (negInf_le x) (Ne.symm h)

theorem lt_posInf_iff {x : XScore} : x < posInf ↔ x ≠ posInf := by
  constructor
  · intro h he; rw [he] at h; exact lt_irrefl _ h
  · intro h; exact lt_of_le_of_ne (le_posInf x) h

@[simp] theorem negInf_max (x : XScore) : max negInf x = x :=
  max_eq_right (negInf_le x)

@[simp] theorem max_negInf (x : XScore) : max x negInf = x :=
  max_eq_left (negInf_le x)

@[simp] theorem posInf_min (x : XScore) : min posInf x = x :=
  min_eq_right (le_posInf x)

@[simp] theorem min_posInf (x : XScore) : min x posInf = x :=
  min_eq_left (le_posInf x)

end XScore

/-! Accessor equations for Position. -/

@[simp] theorem Position.pieces_node (ps : List SquareOcc) (t : Color)
    (cs : List Position) : (Position.node ps t cs).pieces = ps := rfl

@[simp] theorem Position.turn_node (ps : List SquareOcc) (t : Color)
    (cs : List Position) : (Position.node ps t cs).turn = t := rfl

@[simp] theorem Position.children_node (ps : List SquareOcc) (t : Color)
    (cs : List Position) : (Position.node ps t cs).children = cs := rfl

/-! Folding max and min over a list, as the running best score does. -/

section FoldLemmas

variable {γ : Type} [LinearOrder γ]

theorem le_foldl_max (l : List γ) : ∀ b : γ, b ≤ l.foldl max b := by
  induction l with
  | nil => intro b; simp
  | cons a l ih =>
    intro b
    simp only [List.foldl_cons]
    exact le_trans (le_max_left b a) (ih (max b a))

theorem foldl_max_mono (l : List γ) :
    ∀ {a b : γ}, a ≤ b → l.foldl max a ≤ l.foldl max b := by
  induction l with
  | nil => intro a b h; simpa using h
  | cons x l ih =>
    intro a b h
    simp only [List.foldl_cons]
    exact ih (max_le_max h (le_refl x))

theorem foldl_max_pull (l : List γ) :
    ∀ a b : γ, l.foldl max (max a b) = max a (l.foldl max b) := by
  induction l with
  | nil => intro a b; simp
  | cons x l ih =>
    intro a b
    simp only [List.foldl_cons]
    rw [max_assoc, ih]

theorem le_foldl_max_of_mem {l : List γ} {x : γ} (hx : x ∈ l) :
    ∀ b : γ, x ≤ l.foldl max b := by
  induction l with
  | nil => cases hx
  | cons a l ih =>
    intro b
    rcases List.mem_cons.mp hx with h | h
    · subst h
      simp only [List.foldl_cons]
      exact le_trans (le_max_right b x) (le_foldl_max l _)
    · exact ih h _

theorem foldl_max_eq_or (l : List γ) :
    ∀ b : γ, l.foldl max b = b ∨ l.foldl max b ∈ l := by
  induction l with
  | nil => intro b; left; rfl
  | cons a l ih =>
    intro b
    simp only [List.foldl_cons]
    rcases ih (max b a) with h | h
    · rw [h]
      rcases max_choice b a with h' | h'
      · left; exact h'
      · right; rw [h']; exact List.mem_cons_self a l
    · right; exact List.mem_cons_of_mem a h

theorem foldl_min_le (l : List γ) : ∀ b : γ, l.foldl min b ≤ b := by
  induction l with
  | nil => intro b; simp
  | cons a l ih =>
    intro b
    simp only [List.foldl_cons]
    exact le_trans (ih (min b a)) (min_le_left b a)

theorem foldl_min_mono (l : List γ) :
    ∀ {a b : γ}, a ≤ b → l.foldl min a ≤ l.foldl min b := by
  induction l with
  | nil => intro a b h; simpa using h
  | cons x l ih =>
    intro a b h
    simp only [List.foldl_cons]
    exact ih (min_le_min h (le_refl x))

theorem foldl_min_pull (l : List γ) :
    ∀ a b : γ, l.foldl min (min a b) = min a (l.foldl min b) := by
  induction l with
  | nil => intro a b; simp
  | cons x l ih =>
    intro a b
    simp only [List.foldl_cons]
    rw [min_assoc, ih]

theorem foldl_min_le_of_mem {l : List γ} {x : γ} (hx : x ∈ l) :
    ∀ b : γ, l.foldl min b ≤ x := by
  induction l with
  | nil => cases hx
  | cons a l ih =>
    intro b
    rcases List.mem_cons.mp hx with h | h
    · subst h
      simp only [List.foldl_cons]
      exact le_trans (foldl_min_le l _) (min_le_right b x)
    · exact ih h _

theorem foldl_min_eq_or (l : List γ) :
    ∀ b : γ, l.foldl min b = b ∨ l.foldl min b ∈ l := by
  induction l with
  | nil => intro b; left; rfl
  | cons a l ih =>
    intro b
    simp only [List.foldl_cons]
    rcases ih (min b a) with h | h
    · rw [h]
      rcases min_choice b a with h' | h'
      · left; exact h'
      · right; rw [h']; exact List.mem_cons_self a l
    · right; exact List.mem_cons_of_mem a h

end FoldLemmas

/-! The evaluator. -/

/-- Closed form of square_score: table value times sign. -/
theorem square_score_closed (c : Color) (sq : SquareOcc) :
    square_score c sq =
      (match sq.pieceType with
        | PieceType.pawn => (1 : ℚ)
        | PieceType.knight => 3
        | PieceType.bishop => 3.25
        | PieceType.rook => 5
        | PieceType.queen => 9
        | PieceType.king => 20) * (if sq.color = c then 1 else -1) := by
  rcases sq with ⟨pt, col⟩
  by_cases h : col = c <;> cases pt <;> simp [square_score, h]

/-- Changing the evaluation colour flips the sign of every square. -/
theorem square_score_neg (c : Color) (sq : SquareOcc) :
    square_score (!c) sq = - square_score c sq := by
  rcases sq with ⟨pt, col⟩
  cases col <;> cases c <;> cases pt <;> simp [square_score]

/-- Changing the evaluation colour flips the sign of the mate bonus. -/
theorem mate_neg (c : Color) (p : Position) :
    mate (!c) p = - mate c p := by
  by_cases h : p.children.length = 0 <;> simp only [mate, h, if_true, if_false]
  · cases ht : p.turn <;> cases c <;> norm_num
  · norm_num

theorem sum_map_neg {α : Type} (l : List α) (f : α → ℚ) :
    (l.map fun x => - f x).sum = - (l.map f).sum := by
  induction l with
  | nil => simp
  | cons a l ih => simp [ih]; ring

/-- Per-square magnitude bound: no table value exceeds 20. -/
theorem abs_square_score_le (c : Color) (sq : SquareOcc) :
    |square_score c sq| ≤ 20 := by
  rw [abs_le]
  constructor <;>
    (rcases sq with ⟨pt, col⟩
     by_cases h : col = c <;> cases pt <;> simp [square_score, h] <;> norm_num)

theorem abs_sum_square_score_le (c : Color) (l : List SquareOcc) :
    |(l.map (square_score c)).sum| ≤ 20 * l.length := by
  induction l with
  | nil => simp
  | cons a l ih =>
    simp only [List.map_cons, List.sum_cons, List.length_cons]
    calc |square_score c a + (l.map (square_score c)).sum|
        ≤ |square_score c a| + |(l.map (square_score c)).sum| := abs_add _ _
      _ ≤ 20 + 20 * l.length := add_le_add (abs_square_score_le c a) ih
      _ ≤ 20 * (l.length + 1 : ℕ) := by push_cast; linarith

/-! Unfolding helpers for the search functions. -/

/-- The guard of Engine.minimax: at depth 0 or with no legal move the
static evaluation is returned with no move. -/
theorem minimax_leaf (c : Color) (d : Int) (α β : XScore) (t : Bool)
    (p : Position) (h : d = 0 ∨ p.children.length = 0) :
    minimax c d α β t p = (XScore.fin (evaluate_board c p), none) := by
  rw [minimax.eq_def, if_pos h]

theorem plain_leaf (c : Color) (d : Int) (t : Bool) (p : Position)
    (h : d = 0 ∨ p.children.length = 0) :
    minimax_plain c d t p = XScore.fin (evaluate_board c p) := by
  rw [minimax_plain.eq_def, if_pos h]

theorem plain_max_unfold (c : Color) (d : Int) (p : Position)
    (h : ¬(d = 0 ∨ p.children.length = 0)) :
    minimax_plain c d true p =
      (p.children.map (minimax_plain c (d - 1) false)).foldl max XScore.negInf := by
  rw [minimax_plain.eq_def, if_neg h, if_pos rfl, List.attach_map_val]

theorem plain_min_unfold (c : Color) (d : Int) (p : Position)
    (h : ¬(d = 0 ∨ p.children.length = 0)) :
    minimax_plain c d false p =
      (p.children.map (minimax_plain c (d - 1) true)).foldl min XScore.posInf := by
  rw [minimax_plain.eq_def, if_neg h]
  simp only [Bool.false_eq_true, if_false, List.attach_map_val]

/-! Claim C2: closed form of the evaluator. -/

/-- C2. For every position and engine colour, evaluate_board is the sum
over the occupied squares of the signed piece value (pawn 1, knight 3,
bishop 3.25, rook 5, queen 9, king 20, negated for the opposing colour),
plus a terminal bonus of -9999 when there is no legal move and it is the
engine's turn, +9999 when there is no legal move and it is the opponent's
turn, and 0 when a legal move exists. -/
theorem evaluate_board_closed_form (c : Color) (p : Position) :
    evaluate_board c p =
      (p.pieces.map fun sq =>
        (match sq.pieceType with
          | PieceType.pawn => (1 : ℚ)
          | PieceType.knight => 3
          | PieceType.bishop => 3.25
          | PieceType.rook => 5
          | PieceType.queen => 9
          | PieceType.king => 20) * (if sq.color = c then 1 else -1)).sum
      + (if p.children.length = 0 then
           (if p.turn = c then (-9999 : ℚ) else 9999)
         else 0) := by
  unfold evaluate_board material mate
  congr 1
  exact congrArg List.sum
    (List.map_congr_left (fun sq _ => square_score_closed c sq))

/-! Claim C8: the evaluation is antisymmetric in the colour. -/

/-- C8. For every position and colour, the evaluation for a colour is the
negation of the evaluation for the opposite colour: the material term and
the mate bonus both flip sign, in the terminal and non-terminal case
alike. -/
theorem evaluate_board_antisymm (c : Color) (p : Position) :
    evaluate_board c p = - evaluate_board (!c) p := by
  have hmap : p.pieces.map (square_score (!c)) =
      p.pieces.map fun sq => - square_score c sq :=
    List.map_congr_left (fun sq _ => square_score_neg c sq)
  unfold evaluate_board material
  rw [hmap, sum_map_neg, mate_neg]
  ring

/-! Claim C9: the material term can never reach the mate sentinel. -/

/-- C9. On a board with at most 64 occupied squares the material component
of the evaluation is at most 1280 = 64 * 20 in absolute value, hence
strictly below the 9999 mate sentinel, so the sentinel dominates every
achievable material score. -/
theorem material_bounded (c : Color) (p : Position)
    (h : p.pieces.length ≤ 64) :
    |material c p| ≤ 1280 ∧ |material c p| < 9999 := by
  have h1 := abs_sum_square_score_le c p.pieces
  have h2 : (p.pieces.length : ℚ) ≤ 64 := by exact_mod_cast h
  unfold material
  constructor <;> linarith

/-- Witness for C9 at a concrete position with pieces on the board. -/
theorem material_bounded_example :
    posPieces.pieces.length ≤ 64 ∧
      (|material true posPieces| ≤ 1280 ∧ |material true posPieces| < 9999) :=
  ⟨by decide, material_bounded true posPieces (by decide)⟩

/-! Claim C4: the push/pop discipline restores the board on every path.
The stateful search is shown to agree with the pure one and to hand back
the board exactly as it received it. -/

theorem maxLoopS_bridge (c : Color) (d : Int) (β : XScore) (parent : Position) :
    ∀ (moves : List Position) (hm : ∀ m ∈ moves, sizeOf m < sizeOf parent)
      (IH : ∀ ch ∈ moves, ∀ (d' : Int) (a b : XScore) (t : Bool)
        (stk : List Position),
        minimaxS c d' a b t ⟨ch, stk⟩ = (minimax c d' a b t ch, ⟨ch, stk⟩))
      (α m : XScore) (bm : Option Nat) (idx : Nat) (st : BoardSt),
      maxLoopS c d β parent moves hm α m bm idx st =
        (maxLoop c d β parent moves hm α m bm idx, st) := by
  intro moves
  induction moves with
  | nil =>
    intro hm IH α m bm idx st
    rw [maxLoopS, maxLoop]
  | cons ch rest ih =>
    intro hm IH α m bm idx st
    rw [maxLoopS, maxLoop]
    simp only [BoardSt.push]
    simp only [IH ch (List.mem_cons_self ch rest)]
    simp only [BoardSt.pop]
    split
    · rfl
    · exact ih _ (fun x hx dd a b tt stk =>
        IH x (List.mem_cons_of_mem ch hx) dd a b tt stk) _ _ _ _ _

theorem minLoopS_bridge (c : Color) (d : Int) (α : XScore) (parent : Position) :
    ∀ (moves : List Position) (hm : ∀ m ∈ moves, sizeOf m < sizeOf parent)
      (IH : ∀ ch ∈ moves, ∀ (d' : Int) (a b : XScore) (t : Bool)
        (stk : List Position),
        minimaxS c d' a b t ⟨ch, stk⟩ = (minimax c d' a b t ch, ⟨ch, stk⟩))
      (β m : XScore) (bm : Option Nat) (idx : Nat) (st : BoardSt),
      minLoopS c d α parent moves hm β m bm idx st =
        (minLoop c d α parent moves hm β m bm idx, st) := by
  intro moves
  induction moves with
  | nil =>
    intro hm IH β m bm idx st
    rw [minLoopS, minLoop]
  | cons ch rest ih =>
    intro hm IH β m bm idx st
    rw [minLoopS, minLoop]
    simp only [BoardSt.push]
    simp only [IH ch (List.mem_cons_self ch rest)]
    simp only [BoardSt.pop]
    split
    · rfl
    · exact ih _ (fun x hx dd a b tt stk =>
        IH x (List.mem_cons_of_mem ch hx) dd a b tt stk) _ _ _ _ _

theorem minimaxS_bridge (c : Color) :
    ∀ (n : Nat) (p : Position), sizeOf p ≤ n →
      ∀ (d : Int) (α β : XScore) (t : Bool) (stk : List Position),
        minimaxS c d α β t ⟨p, stk⟩ = (minimax c d α β t p, ⟨p, stk⟩) := by
  intro n
  induction n with
  | zero =>
    intro p hp
    exfalso
    cases p with
    | node ps t cs => simp only [Position.node.sizeOf_spec] at hp; omega
  | succ n ih =>
    intro p hp d α β t stk
    have hch : ∀ ch ∈ p.children, ∀ (d' : Int) (a b : XScore) (t' : Bool)
        (stk' : List Position),
        minimaxS c d' a b t' ⟨ch, stk'⟩ = (minimax c d' a b t' ch, ⟨ch, stk'⟩) := by
      intro ch hmem
      apply ih
      cases p with
      | node ps tt cs =>
        simp only [Position.children] at hmem
        have h1 : sizeOf ch < sizeOf cs := List.sizeOf_lt_of_mem hmem
        simp only [Position.node.sizeOf_spec] at hp
        omega
    rw [minimaxS.eq_def, minimax.eq_def]
    by_cases hg : d = 0 ∨ p.children.length = 0
    · rw [if_pos hg, if_pos hg]
    · simp only [hg, if_false]
      cases t
      · simp only [Bool.false_eq_true, if_false]
        exact minLoopS_bridge c d α p p.children _ hch β XScore.posInf none 0 _
      · simp only [if_pos rfl]
        exact maxLoopS_bridge c d β p p.children _ hch α XScore.negInf none 0 _

/-- C4. After any call to the (stateful) search, at any depth, with any
window and on either side's turn, the board is exactly the state it had
before the call: every push is matched by a pop on every exit path,
including the pruning exit. -/
theorem minimaxS_preserves_board (c : Color) (d : Int) (α β : XScore)
    (t : Bool) (st : BoardSt) : (minimaxS c d α β t st).2 = st := by
  obtain ⟨p, stk⟩ := st
  rw [minimaxS_bridge c (sizeOf p) p (le_refl _) d α β t stk]

/-! Exactness of the pruned search: the alpha-beta value is squeezed
between bounds that collapse to the unpruned value on the full window. -/

theorem sizeOf_child_lt {p ch : Position} (h : ch ∈ p.children) :
    sizeOf ch < sizeOf p := by
  cases p with
  | node ps t cs =>
    simp only [Position.children] at h
    have h1 := List.sizeOf_lt_of_mem h
    simp only [Position.node.sizeOf_spec]
    omega

/-- One unfolding step of the maximizing loop. -/
theorem maxLoop_cons (c : Color) (d : Int) (β : XScore) (parent ch : Position)
    (rest : List Position) (hm : ∀ m ∈ ch :: rest, sizeOf m < sizeOf parent)
    (α m : XScore) (bm : Option Nat) (idx : Nat) :
    maxLoop c d β parent (ch :: rest) hm α m bm idx =
      if β ≤ max α (minimax c (d - 1) α β false ch).1 then
        (max m (minimax c (d - 1) α β false ch).1,
         if m < (minimax c (d - 1) α β false ch).1 then some idx else bm)
      else
        maxLoop c d β parent rest
          (fun x hx => hm x (List.mem_cons_of_mem ch hx))
          (max α (minimax c (d - 1) α β false ch).1)
          (max m (minimax c (d - 1) α β false ch).1)
          (if m < (minimax c (d - 1) α β false ch).1 then some idx else bm)
          (idx + 1) := by
  rw [maxLoop]
  by_cases h1 : m < (minimax c (d - 1) α β false ch).1
  · simp [h1, max_eq_right (le_of_lt h1)]
  · simp [h1, max_eq_left (le_of_not_lt h1)]

/-- One unfolding step of the minimizing loop. -/
theorem minLoop_cons (c : Color) (d : Int) (α : XScore) (parent ch : Position)
    (rest : List Position) (hm : ∀ m ∈ ch :: rest, sizeOf m < sizeOf parent)
    (β m : XScore) (bm : Option Nat) (idx : Nat) :
    minLoop c d α parent (ch :: rest) hm β m bm idx =
      if min β (minimax c (d - 1) α β true ch).1 ≤ α then
        (min m (minimax c (d - 1) α β true ch).1,
         if (minimax c (d - 1) α β true ch).1 < m then some idx else bm)
      else
        minLoop c d α parent rest
          (fun x hx => hm x (List.mem_cons_of_mem ch hx))
          (min β (minimax c (d - 1) α β true ch).1)
          (min m (minimax c (d - 1) α β true ch).1)
          (if (minimax c (d - 1) α β true ch).1 < m then some idx else bm)
          (idx + 1) := by
  rw [minLoop]
  by_cases h1 : (minimax c (d - 1) α β true ch).1 < m
  · simp [h1, min_eq_right (le_of_lt h1)]
  · simp [h1, min_eq_left (le_of_not_lt h1)]

/-- Window bounds for the maximizing loop: the running result stays between
min beta (folded plain value) and max of the original alpha and the folded
plain value. -/
theorem maxLoop_bounds (c : Color) (d : Int) (β alpha0 : XScore)
    (parent : Position) :
    ∀ (moves : List Position) (hm : ∀ m ∈ moves, sizeOf m < sizeOf parent)
      (TIH : ∀ ch ∈ moves, ∀ a : XScore, a < β →
        min β (minimax_plain c (d - 1) false ch) ≤
          (minimax c (d - 1) a β false ch).1 ∧
        (minimax c (d - 1) a β false ch).1 ≤
          max a (minimax_plain c (d - 1) false ch))
      (m α : XScore) (bm : Option Nat) (idx : Nat),
      α = max alpha0 m → α < β →
      min β ((moves.map (minimax_plain c (d - 1) false)).foldl max m) ≤
        (maxLoop c d β parent moves hm α m bm idx).1 ∧
      (maxLoop c d β parent moves hm α m bm idx).1 ≤
        max alpha0 ((moves.map (minimax_plain c (d - 1) false)).foldl max m) := by
  intro moves
  induction moves with
  | nil =>
    intro hm TIH m α bm idx hα hαβ
    rw [maxLoop]
    simp only [List.map_nil, List.foldl_nil]
    exact ⟨min_le_right _ _, le_max_right _ _⟩
  | cons ch rest ih =>
    intro hm TIH m α bm idx hα hαβ
    rw [maxLoop_cons]
    set s := (minimax c (d - 1) α β false ch).1 with hs
    set w := minimax_plain c (d - 1) false ch with hw
    obtain ⟨hls, hus⟩ := TIH ch (List.mem_cons_self ch rest) α hαβ
    rw [← hs, ← hw] at hls hus
    simp only [List.map_cons, List.foldl_cons, ← hw]
    have hsub : s ≤ max alpha0 (max m w) := by
      rw [hα] at hus
      calc s ≤ max (max alpha0 m) w := hus
        _ = max alpha0 (max m w) := max_assoc alpha0 m w
    have hseed : max m w ≤ (rest.map (minimax_plain c (d - 1) false)).foldl max (max m w) :=
      le_foldl_max _ _
    by_cases hbr : β ≤ max α s
    · rw [if_pos hbr]
      have hβs : β ≤ s := by
        rcases le_max_iff.mp hbr with h | h
        · exact absurd h (not_le_of_lt hαβ)
        · exact h
      constructor
      · exact le_trans (min_le_left β _) (le_trans hβs (le_max_right m s))
      · refine max_le ?_ ?_
        · exact le_trans (le_max_left m w)
            (le_trans hseed (le_max_right alpha0 _))
        · exact le_trans hsub
            (max_le_max (le_refl alpha0) hseed)
    · rw [if_neg hbr]
      have hα'β : max α s < β := lt_of_not_ge hbr
      have hsβ : s < β := lt_of_le_of_lt (le_max_right α s) hα'β
      have hws : w ≤ s := by
        rcases min_choice β w with h | h
        · rw [h] at hls; exact absurd hls (not_le_of_lt hsβ)
        · rw [h] at hls; exact hls
      have hα'' : max α s = max alpha0 (max m s) := by
        rw [hα]; exact max_assoc alpha0 m s
      obtain ⟨ihl, ihu⟩ := ih
        (fun x hx => hm x (List.mem_cons_of_mem ch hx))
        (fun x hx => TIH x (List.mem_cons_of_mem ch hx))
        (max m s) (max α s) (if m < s then some idx else bm) (idx + 1)
        hα'' hα'β
      have hfold : (rest.map (minimax_plain c (d - 1) false)).foldl max (max m w) ≤
          (rest.map (minimax_plain c (d - 1) false)).foldl max (max m s) :=
        foldl_max_mono _ (max_le_max (le_refl m) hws)
      constructor
      · exact le_trans (min_le_min (le_refl β) hfold) ihl
      · have hr' : (rest.map (minimax_plain c (d - 1) false)).foldl max (max m s) ≤
            max alpha0 ((rest.map (minimax_plain c (d - 1) false)).foldl max (max m w)) := by
          have h1 : max m s ≤ max alpha0 (max m w) :=
            max_le (le_trans (le_max_left m w) (le_max_right alpha0 _)) hsub
          calc (rest.map (minimax_plain c (d - 1) false)).foldl max (max m s)
              ≤ (rest.map (minimax_plain c (d - 1) false)).foldl max
                  (max alpha0 (max m w)) := foldl_max_mono _ h1
            _ = max alpha0 ((rest.map (minimax_plain c (d - 1) false)).foldl max
                  (max m w)) := foldl_max_pull _ _ _
        calc (maxLoop c d β parent rest _ (max α s) (max m s) _ (idx + 1)).1
            ≤ max alpha0 ((rest.map (minimax_plain c (d - 1) false)).foldl max (max m s)) := ihu
          _ ≤ max alpha0 (max alpha0 ((rest.map (minimax_plain c (d - 1) false)).foldl max (max m w))) :=
              max_le_max (le_refl alpha0) hr'
          _ = max alpha0 ((rest.map (minimax_plain c (d - 1) false)).foldl max (max m w)) := by
              rw [← max_assoc, max_self]

/-- Window bounds for the minimizing loop, dual to maxLoop_bounds. -/
theorem minLoop_bounds (c : Color) (d : Int) (α beta0 : XScore)
    (parent : Position) :
    ∀ (moves : List Position) (hm : ∀ m ∈ moves, sizeOf m < sizeOf parent)
      (TIH : ∀ ch ∈ moves, ∀ b : XScore, α < b →
        min b (minimax_plain c (d - 1) true ch) ≤
          (minimax c (d - 1) α b true ch).1 ∧
        (minimax c (d - 1) α b true ch).1 ≤
          max α (minimax_plain c (d - 1) true ch))
      (m β : XScore) (bm : Option Nat) (idx : Nat),
      β = min beta0 m → α < β →
      min beta0 ((moves.map (minimax_plain c (d - 1) true)).foldl min m) ≤
        (minLoop c d α parent moves hm β m bm idx).1 ∧
      (minLoop c d α parent moves hm β m bm idx).1 ≤
        max α ((moves.map (minimax_plain c (d - 1) true)).foldl min m) := by
  intro moves
  induction moves with
  | nil =>
    intro hm TIH m β bm idx hβ hαβ
    rw [minLoop]
    simp only [List.map_nil, List.foldl_nil]
    exact ⟨min_le_right _ _, le_max_right _ _⟩
  | cons ch rest ih =>
    intro hm TIH m β bm idx hβ hαβ
    rw [minLoop_cons]
    set s := (minimax c (d - 1) α β true ch).1 with hs
    set w := minimax_plain c (d - 1) true ch with hw
    obtain ⟨hls, hus⟩ := TIH ch (List.mem_cons_self ch rest) β hαβ
    rw [← hs, ← hw] at hls hus
    simp only [List.map_cons, List.foldl_cons, ← hw]
    have hsub : min beta0 (min m w) ≤ s := by
      rw [hβ] at hls
      calc min beta0 (min m w) = min (min beta0 m) w := (min_assoc beta0 m w).symm
        _ ≤ s := hls
    have hseed : (rest.map (minimax_plain c (d - 1) true)).foldl min (min m w) ≤ min m w :=
      foldl_min_le _ _
    by_cases hbr : min β s ≤ α
    · rw [if_pos hbr]
      have hsα : s ≤ α := by
        rcases min_le_iff.mp hbr with h | h
        · exact absurd h (not_le_of_lt hαβ)
        · exact h
      constructor
      · refine le_min ?_ ?_
        · exact le_trans (min_le_right beta0 _)
            (le_trans hseed (min_le_left m w))
        · exact le_trans (min_le_min (le_refl beta0) hseed) hsub
      · exact le_trans (min_le_right m s) (le_trans hsα (le_max_left α _))
    · rw [if_neg hbr]
      have hα'β : α < min β s := lt_of_not_ge hbr
      have hαs : α < s := lt_of_lt_of_le hα'β (min_le_right β s)
      have hsw : s ≤ w := by
        rcases le_max_iff.mp hus with h | h
        · exact absurd h (not_le_of_lt hαs)
        · exact h
      have hβ'' : min β s = min beta0 (min m s) := by
        rw [hβ]; exact min_assoc beta0 m s
      obtain ⟨ihl, ihu⟩ := ih
        (fun x hx => hm x (List.mem_cons_of_mem ch hx))
        (fun x hx => TIH x (List.mem_cons_of_mem ch hx))
        (min m s) (min β s) (if s < m then some idx else bm) (idx + 1)
        hβ'' hα'β
      have hfold : (rest.map (minimax_plain c (d - 1) true)).foldl min (min m s) ≤
          (rest.map (minimax_plain c (d - 1) true)).foldl min (min m w) :=
        foldl_min_mono _ (min_le_min (le_refl m) hsw)
      constructor
      · have h1 : min beta0 (min m w) ≤ min m s :=
          le_min (le_trans (min_le_right beta0 _) (min_le_left m w)) hsub
        have hr' : min beta0 ((rest.map (minimax_plain c (d - 1) true)).foldl min (min m w)) ≤
            (rest.map (minimax_plain c (d - 1) true)).foldl min (min m s) := by
          calc min beta0 ((rest.map (minimax_plain c (d - 1) true)).foldl min (min m w))
              = (rest.map (minimax_plain c (d - 1) true)).foldl min
                  (min beta0 (min m w)) := (foldl_min_pull _ _ _).symm
            _ ≤ (rest.map (minimax_plain c (d - 1) true)).foldl min (min m s) :=
                foldl_min_mono _ h1
        calc min beta0 ((rest.map (minimax_plain c (d - 1) true)).foldl min (min m w))
            ≤ min beta0 ((rest.map (minimax_plain c (d - 1) true)).foldl min (min m s)) :=
              le_min (min_le_left _ _) hr'
          _ ≤ (minLoop c d α parent rest _ (min β s) (min m s) _ (idx + 1)).1 := ihl
      · exact le_trans ihu (max_le_max (le_refl α) hfold)

theorem ab_bounds_aux (c : Color) :
    ∀ (n : Nat) (p : Position), sizeOf p ≤ n →
      ∀ (d : Int) (t : Bool) (α β : XScore), α < β →
        min β (minimax_plain c d t p) ≤ (minimax c d α β t p).1 ∧
        (minimax c d α β t p).1 ≤ max α (minimax_plain c d t p) := by
  intro n
  induction n with
  | zero =>
    intro p hp
    exfalso
    cases p with
    | node ps t cs => simp only [Position.node.sizeOf_spec] at hp; omega
  | succ n ih =>
    intro p hp d t α β hαβ
    by_cases hg : d = 0 ∨ p.children.length = 0
    · rw [minimax_leaf c d α β t p hg, plain_leaf c d t p hg]
      exact ⟨min_le_right _ _, le_max_right _ _⟩
    · have hsize : ∀ ch ∈ p.children, sizeOf ch ≤ n := fun ch hch =>
        Nat.lt_succ_iff.mp (lt_of_lt_of_le (sizeOf_child_lt hch) hp)
      rw [minimax.eq_def, if_neg hg]
      cases t
      · simp only [Bool.false_eq_true, if_false]
        rw [plain_min_unfold c d p hg]
        have h := minLoop_bounds c d α β p p.children
          (fun m hmem => sizeOf_child_lt hmem)
          (fun ch hch b hb => ih ch (hsize ch hch) (d - 1) true α b hb)
          XScore.posInf β none 0 (XScore.min_posInf β).symm hαβ
        simpa using h
      · simp only [if_pos rfl]
        rw [plain_max_unfold c d p hg]
        have h := maxLoop_bounds c d β α p p.children
          (fun m hmem => sizeOf_child_lt hmem)
          (fun ch hch a ha => ih ch (hsize ch hch) (d - 1) false a β ha)
          XScore.negInf α none 0 (XScore.max_negInf α).symm hαβ
        simpa using h

/-- Fail-soft window bounds for the alpha-beta search: on any window with
alpha < beta the returned score lies between min beta v and max alpha v,
where v is the unpruned minimax value. -/
theorem ab_bounds (c : Color) (p : Position) (d : Int) (t : Bool)
    (α β : XScore) (hαβ : α < β) :
    min β (minimax_plain c d t p) ≤ (minimax c d α β t p).1 ∧
    (minimax c d α β t p).1 ≤ max α (minimax_plain c d t p) :=
  ab_bounds_aux c (sizeOf p) p (le_refl _) d t α β hαβ

/-- The score of the full-window alpha-beta search equals the unpruned
minimax value. -/
theorem minimax_fullWindow_score (c : Color) (d : Int) (t : Bool)
    (p : Position) :
    (minimax c d XScore.negInf XScore.posInf t p).1 = minimax_plain c d t p := by
  obtain ⟨hl, hu⟩ := ab_bounds c p d t XScore.negInf XScore.posInf
    XScore.negInf_lt_posInf
  rw [XScore.posInf_min] at hl
  rw [XScore.negInf_max] at hu
  exact le_antisymm hu hl

/-! Claim C1: pruning never changes the returned score. -/

/-- C1. For every position, every depth at least 0 and either side to
move, the score returned by minimax on the full window (-inf, +inf) equals
the value of the unpruned exhaustive minimax search of the same tree to
the same depth with evaluate_board at the leaves. -/
theorem alphabeta_fullWindow_eq_unpruned (c : Color) (p : Position)
    (d : Int) (t : Bool) (hd : 0 ≤ d) :
    (minimax c d XScore.negInf XScore.posInf t p).1 = minimax_plain c d t p :=
  minimax_fullWindow_score c d t p

/-- Witness for C1 at depth 1 on a concrete position. -/
theorem alphabeta_fullWindow_eq_unpruned_example :
    (0 : Int) ≤ 1 ∧
      (minimax true 1 XScore.negInf XScore.posInf true posOne).1 =
        minimax_plain true 1 true posOne :=
  ⟨by decide, alphabeta_fullWindow_eq_unpruned true posOne 1 true (by decide)⟩

/-! Claim C10: the infinite initial bounds never escape as the score. -/

theorem plain_fin_aux (c : Color) :
    ∀ (n : Nat) (p : Position), sizeOf p ≤ n →
      ∀ (d : Int) (t : Bool), ∃ q, minimax_plain c d t p = XScore.fin q := by
  intro n
  induction n with
  | zero =>
    intro p hp
    exfalso
    cases p with
    | node ps t cs => simp only [Position.node.sizeOf_spec] at hp; omega
  | succ n ih =>
    intro p hp d t
    by_cases hg : d = 0 ∨ p.children.length = 0
    · exact ⟨evaluate_board c p, plain_leaf c d t p hg⟩
    · have hsize : ∀ ch ∈ p.children, sizeOf ch ≤ n := fun ch hch =>
        Nat.lt_succ_iff.mp (lt_of_lt_of_le (sizeOf_child_lt hch) hp)
      have hne : p.children ≠ [] := by
        intro h
        exact hg (Or.inr (by rw [h]; rfl))
      obtain ⟨ch0, hch0⟩ := List.exists_mem_of_ne_nil _ hne
      cases t
      · rw [plain_min_unfold c d p hg]
        rcases foldl_min_eq_or (p.children.map (minimax_plain c (d - 1) true))
            XScore.posInf with h | h
        · exfalso
          have hmem : minimax_plain c (d - 1) true ch0 ∈
              p.children.map (minimax_plain c (d - 1) true) :=
            List.mem_map_of_mem _ hch0
          have h1 := foldl_min_le_of_mem hmem XScore.posInf
          rw [h] at h1
          obtain ⟨q, hq⟩ := ih ch0 (hsize ch0 hch0) (d - 1) true
          rw [hq] at h1
          exact absurd (XScore.posInf_le_iff.mp h1) (by simp)
        · obtain ⟨x, hx, hfx⟩ := List.mem_map.mp h
          obtain ⟨q, hq⟩ := ih x (hsize x hx) (d - 1) true
          exact ⟨q, by rw [← hfx, hq]⟩
      · rw [plain_max_unfold c d p hg]
        rcases foldl_max_eq_or (p.children.map (minimax_plain c (d - 1) false))
            XScore.negInf with h | h
        · exfalso
          have hmem : minimax_plain c (d - 1) false ch0 ∈
              p.children.map (minimax_plain c (d - 1) false) :=
            List.mem_map_of_mem _ hch0
          have h1 := le_foldl_max_of_mem hmem XScore.negInf
          rw [h] at h1
          obtain ⟨q, hq⟩ := ih ch0 (hsize ch0 hch0) (d - 1) false
          rw [hq] at h1
          exact absurd (XScore.le_negInf_iff.mp h1) (by simp)
        · obtain ⟨x, hx, hfx⟩ := List.mem_map.mp h
          obtain ⟨q, hq⟩ := ih x (hsize x hx) (d - 1) false
          exact ⟨q, by rw [← hfx, hq]⟩

/-- The unpruned minimax value is always a finite score. -/
theorem plain_fin (c : Color) (d : Int) (t : Bool) (p : Position) :
    ∃ q, minimax_plain c d t p = XScore.fin q :=
  plain_fin_aux c (sizeOf p) p (le_refl _) d t

/-- C10. For every position and every depth at least 0, the score
component returned by minimax on the initial infinite window is a finite
value: the infinite initial best scores never escape as the returned
score. -/
theorem minimax_fullWindow_finite (c : Color) (p : Position) (d : Int)
    (t : Bool) (hd : 0 ≤ d) :
    ∃ q, (minimax c d XScore.negInf XScore.posInf t p).1 = XScore.fin q := by
  rw [minimax_fullWindow_score]
  exact plain_fin c d t p

/-- Witness for C10 at depth 1 on a concrete position. -/
theorem minimax_fullWindow_finite_example :
    (0 : Int) ≤ 1 ∧
      ∃ q, (minimax true 1 XScore.negInf XScore.posInf true posOne).1 =
        XScore.fin q :=
  ⟨by decide, minimax_fullWindow_finite true posOne 1 true (by decide)⟩

/-! Finiteness of every returned score, on any window: each loop processes
its first move before any cutoff test, so the infinite seeds are always
replaced. -/

theorem maxLoop_fin (c : Color) (d : Int) (β : XScore) (parent : Position) :
    ∀ (moves : List Position) (hm : ∀ m ∈ moves, sizeOf m < sizeOf parent)
      (TIH : ∀ ch ∈ moves, ∀ a : XScore,
        ∃ q, (minimax c (d - 1) a β false ch).1 = XScore.fin q)
      (m α : XScore) (bm : Option Nat) (idx : Nat),
      (m = XScore.negInf ∧ moves ≠ []) ∨ (∃ qm, m = XScore.fin qm) →
      ∃ q, (maxLoop c d β parent moves hm α m bm idx).1 = XScore.fin q := by
  intro moves
  induction moves with
  | nil =>
    intro hm TIH m α bm idx hcase
    rcases hcase with ⟨_, hne⟩ | ⟨qm, hqm⟩
    · exact absurd rfl hne
    · rw [maxLoop]; exact ⟨qm, hqm⟩
  | cons ch rest ih =>
    intro hm TIH m α bm idx hcase
    rw [maxLoop_cons]
    obtain ⟨qs, hqs⟩ := TIH ch (List.mem_cons_self ch rest) α
    have hfin : ∃ q, max m (minimax c (d - 1) α β false ch).1 = XScore.fin q := by
      rcases hcase with ⟨hm0, _⟩ | ⟨qm, hqm⟩
      · rw [hm0, hqs, XScore.negInf_max]; exact ⟨qs, rfl⟩
      · rw [hqm, hqs]
        rcases max_choice (XScore.fin qm) (XScore.fin qs) with h | h <;> rw [h]
        · exact ⟨qm, rfl⟩
        · exact ⟨qs, rfl⟩
    by_cases hbr : β ≤ max α (minimax c (d - 1) α β false ch).1
    · rw [if_pos hbr]; exact hfin
    · rw [if_neg hbr]
      exact ih _ (fun x hx => TIH x (List.mem_cons_of_mem ch hx)) _ _ _ _
        (Or.inr hfin)

theorem minLoop_fin (c : Color) (d : Int) (α : XScore) (parent : Position) :
    ∀ (moves : List Position) (hm : ∀ m ∈ moves, sizeOf m < sizeOf parent)
      (TIH : ∀ ch ∈ moves, ∀ b : XScore,
        ∃ q, (minimax c (d - 1) α b true ch).1 = XScore.fin q)
      (m β : XScore) (bm : Option Nat) (idx : Nat),
      (m = XScore.posInf ∧ moves ≠ []) ∨ (∃ qm, m = XScore.fin qm) →
      ∃ q, (minLoop c d α parent moves hm β m bm idx).1 = XScore.fin q := by
  intro moves
  induction moves with
  | nil =>
    intro hm TIH m β bm idx hcase
    rcases hcase with ⟨_, hne⟩ | ⟨qm, hqm⟩
    · exact absurd rfl hne
    · rw [minLoop]; exact ⟨qm, hqm⟩
  | cons ch rest ih =>
    intro hm TIH m β bm idx hcase
    rw [minLoop_cons]
    obtain ⟨qs, hqs⟩ := TIH ch (List.mem_cons_self ch rest) β
    have hfin : ∃ q, min m (minimax c (d - 1) α β true ch).1 = XScore.fin q := by
      rcases hcase with ⟨hm0, _⟩ | ⟨qm, hqm⟩
      · rw [hm0, hqs, XScore.posInf_min]; exact ⟨qs, rfl⟩
      · rw [hqm, hqs]
        rcases min_choice (XScore.fin qm) (XScore.fin qs) with h | h <;> rw [h]
        · exact ⟨qm, rfl⟩
        · exact ⟨qs, rfl⟩
    by_cases hbr : min β (minimax c (d - 1) α β true ch).1 ≤ α
    · rw [if_pos hbr]; exact hfin
    · rw [if_neg hbr]
      exact ih _ (fun x hx => TIH x (List.mem_cons_of_mem ch hx)) _ _ _ _
        (Or.inr hfin)

theorem minimax_fin_aux (c : Color) :
    ∀ (n : Nat) (p : Position), sizeOf p ≤ n →
      ∀ (d : Int) (α β : XScore) (t : Bool),
        ∃ q, (minimax c d α β t p).1 = XScore.fin q := by
  intro n
  induction n with
  | zero =>
    intro p hp
    exfalso
    cases p with
    | node ps t cs => simp only [Position.node.sizeOf_spec] at hp; omega
  | succ n ih =>
    intro p hp d α β t
    by_cases hg : d = 0 ∨ p.children.length = 0
    · rw [minimax_leaf c d α β t p hg]
      exact ⟨evaluate_board c p, rfl⟩
    · have hsize : ∀ ch ∈ p.children, sizeOf ch ≤ n := fun ch hch =>
        Nat.lt_succ_iff.mp (lt_of_lt_of_le (sizeOf_child_lt hch) hp)
      have hne : p.children ≠ [] := by
        intro h
        exact hg (Or.inr (by rw [h]; rfl))
      rw [minimax.eq_def, if_neg hg]
      cases t
      · simp only [Bool.false_eq_true, if_false]
        exact minLoop_fin c d α p p.children _
          (fun ch hch b => ih ch (hsize ch hch) (d - 1) α b true)
          XScore.posInf β none 0 (Or.inl ⟨rfl, hne⟩)
      · simp only [if_pos rfl]
        exact maxLoop_fin c d β p p.children _
          (fun ch hch a => ih ch (hsize ch hch) (d - 1) a β false)
          XScore.negInf α none 0 (Or.inl ⟨rfl, hne⟩)

/-- Every score minimax returns, on any window, is a finite value. -/
theorem minimax_fin (c : Color) (d : Int) (α β : XScore) (t : Bool)
    (p : Position) : ∃ q, (minimax c d α β t p).1 = XScore.fin q :=
  minimax_fin_aux c (sizeOf p) p (le_refl _) d α β t

/-! Where the returned best move can come from. -/

theorem maxLoop_bm (c : Color) (d : Int) (β : XScore) (parent : Position) :
    ∀ (moves : List Position) (hm : ∀ m ∈ moves, sizeOf m < sizeOf parent)
      (α m : XScore) (bm : Option Nat) (idx : Nat),
      (maxLoop c d β parent moves hm α m bm idx).2 = bm ∨
      ∃ j, (maxLoop c d β parent moves hm α m bm idx).2 = some j ∧
        idx ≤ j ∧ j < idx + moves.length := by
  intro moves
  induction moves with
  | nil =>
    intro hm α m bm idx
    rw [maxLoop]
    exact Or.inl rfl
  | cons ch rest ih =>
    intro hm α m bm idx
    rw [maxLoop_cons]
    by_cases hbr : β ≤ max α (minimax c (d - 1) α β false ch).1
    · rw [if_pos hbr]
      by_cases h1 : m < (minimax c (d - 1) α β false ch).1
      · rw [if_pos h1]
        exact Or.inr ⟨idx, rfl, le_refl idx, by simp [List.length_cons]⟩
      · rw [if_neg h1]
        exact Or.inl rfl
    · rw [if_neg hbr]
      rcases ih (fun x hx => hm x (List.mem_cons_of_mem ch hx))
        (max α (minimax c (d - 1) α β false ch).1)
        (max m (minimax c (d - 1) α β false ch).1)
        (if m < (minimax c (d - 1) α β false ch).1 then some idx else bm)
        (idx + 1) with h | h
      · rw [h]
        by_cases h1 : m < (minimax c (d - 1) α β false ch).1
        · rw [if_pos h1]
          exact Or.inr ⟨idx, rfl, le_refl idx, by simp [List.length_cons]⟩
        · rw [if_neg h1]
          exact Or.inl rfl
      · obtain ⟨j, hj, hj1, hj2⟩ := h
        refine Or.inr ⟨j, hj, le_trans (Nat.le_succ idx) hj1, ?_⟩
        simp only [List.length_cons]
        omega

theorem minLoop_bm (c : Color) (d : Int) (α : XScore) (parent : Position) :
    ∀ (moves : List Position) (hm : ∀ m ∈ moves, sizeOf m < sizeOf parent)
      (β m : XScore) (bm : Option Nat) (idx : Nat),
      (minLoop c d α parent moves hm β m bm idx).2 = bm ∨
      ∃ j, (minLoop c d α parent moves hm β m bm idx).2 = some j ∧
        idx ≤ j ∧ j < idx + moves.length := by
  intro moves
  induction moves with
  | nil =>
    intro hm β m bm idx
    rw [minLoop]
    exact Or.inl rfl
  | cons ch rest ih =>
    intro hm β m bm idx
    rw [minLoop_cons]
    by_cases hbr : min β (minimax c (d - 1) α β true ch).1 ≤ α
    · rw [if_pos hbr]
      by_cases h1 : (minimax c (d - 1) α β true ch).1 < m
      · rw [if_pos h1]
        exact Or.inr ⟨idx, rfl, le_refl idx, by simp [List.length_cons]⟩
      · rw [if_neg h1]
        exact Or.inl rfl
    · rw [if_neg hbr]
      rcases ih (fun x hx => hm x (List.mem_cons_of_mem ch hx))
        (min β (minimax c (d - 1) α β true ch).1)
        (min m (minimax c (d - 1) α β true ch).1)
        (if (minimax c (d - 1) α β true ch).1 < m then some idx else bm)
        (idx + 1) with h | h
      · rw [h]
        by_cases h1 : (minimax c (d - 1) α β true ch).1 < m
        · rw [if_pos h1]
          exact Or.inr ⟨idx, rfl, le_refl idx, by simp [List.length_cons]⟩
        · rw [if_neg h1]
          exact Or.inl rfl
      · obtain ⟨j, hj, hj1, hj2⟩ := h
        refine Or.inr ⟨j, hj, le_trans (Nat.le_succ idx) hj1, ?_⟩
        simp only [List.length_cons]
        omega

/-! A non-leaf call always selects some move. -/

theorem maxLoop_some (c : Color) (d : Int) (β : XScore) (parent : Position) :
    ∀ (moves : List Position) (hm : ∀ m ∈ moves, sizeOf m < sizeOf parent)
      (TIH : ∀ ch ∈ moves, ∀ a : XScore,
        ∃ q, (minimax c (d - 1) a β false ch).1 = XScore.fin q)
      (α m : XScore) (bm : Option Nat) (idx : Nat),
      ((∃ j, bm = some j) ∨ (m = XScore.negInf ∧ moves ≠ [])) →
      ∃ j, (maxLoop c d β parent moves hm α m bm idx).2 = some j := by
  intro moves
  induction moves with
  | nil =>
    intro hm TIH α m bm idx hcase
    rcases hcase with ⟨j, hj⟩ | ⟨_, hne⟩
    · rw [maxLoop]; exact ⟨j, hj⟩
    · exact absurd rfl hne
  | cons ch rest ih =>
    intro hm TIH α m bm idx hcase
    rw [maxLoop_cons]
    obtain ⟨qs, hqs⟩ := TIH ch (List.mem_cons_self ch rest) α
    have hbm' : ∃ j, (if m < (minimax c (d - 1) α β false ch).1
        then some idx else bm) = some j := by
      rcases hcase with ⟨j, hj⟩ | ⟨hm0, _⟩
      · by_cases h1 : m < (minimax c (d - 1) α β false ch).1
        · rw [if_pos h1]; exact ⟨idx, rfl⟩
        · rw [if_neg h1]; exact ⟨j, hj⟩
      · have h1 : m < (minimax c (d - 1) α β false ch).1 := by
          rw [hm0, hqs]; exact XScore.negInf_lt_fin qs
        rw [if_pos h1]; exact ⟨idx, rfl⟩
    by_cases hbr : β ≤ max α (minimax c (d - 1) α β false ch).1
    · rw [if_pos hbr]; exact hbm'
    · rw [if_neg hbr]
      exact ih _ (fun x hx => TIH x (List.mem_cons_of_mem ch hx)) _ _ _ _
        (Or.inl hbm')

theorem minLoop_some (c : Color) (d : Int) (α : XScore) (parent : Position) :
    ∀ (moves : List Position) (hm : ∀ m ∈ moves, sizeOf m < sizeOf parent)
      (TIH : ∀ ch ∈ moves, ∀ b : XScore,
        ∃ q, (minimax c (d - 1) α b true ch).1 = XScore.fin q)
      (β m : XScore) (bm : Option Nat) (idx : Nat),
      ((∃ j, bm = some j) ∨ (m = XScore.posInf ∧ moves ≠ [])) →
      ∃ j, (minLoop c d α parent moves hm β m bm idx).2 = some j := by
  intro moves
  induction moves with
  | nil =>
    intro hm TIH β m bm idx hcase
    rcases hcase with ⟨j, hj⟩ | ⟨_, hne⟩
    · rw [minLoop]; exact ⟨j, hj⟩
    · exact absurd rfl hne
  | cons ch rest ih =>
    intro hm TIH β m bm idx hcase
    rw [minLoop_cons]
    obtain ⟨qs, hqs⟩ := TIH ch (List.mem_cons_self ch rest) β
    have hbm' : ∃ j, (if (minimax c (d - 1) α β true ch).1 < m
        then some idx else bm) = some j := by
      rcases hcase with ⟨j, hj⟩ | ⟨hm0, _⟩
      · by_cases h1 : (minimax c (d - 1) α β true ch).1 < m
        · rw [if_pos h1]; exact ⟨idx, rfl⟩
        · rw [if_neg h1]; exact ⟨j, hj⟩
      · have h1 : (minimax c (d - 1) α β true ch).1 < m := by
          rw [hm0, hqs]; exact XScore.fin_lt_posInf qs
        rw [if_pos h1]; exact ⟨idx, rfl⟩
    by_cases hbr : min β (minimax c (d - 1) α β true ch).1 ≤ α
    · rw [if_pos hbr]; exact hbm'
    · rw [if_neg hbr]
      exact ih _ (fun x hx => TIH x (List.mem_cons_of_mem ch hx)) _ _ _ _
        (Or.inl hbm')

/-- Any call that passes the guard returns some legal move. -/
theorem minimax_some (c : Color) (d : Int) (α β : XScore) (t : Bool)
    (p : Position) (hd : d ≠ 0) (hc : p.children.length ≠ 0) :
    ∃ j, (minimax c d α β t p).2 = some j := by
  have hg : ¬(d = 0 ∨ p.children.length = 0) := by
    intro h; rcases h with h | h
    · exact hd h
    · exact hc h
  have hne : p.children ≠ [] := by
    intro h
    exact hc (by rw [h]; rfl)
  rw [minimax.eq_def, if_neg hg]
  cases t
  · simp only [Bool.false_eq_true, if_false]
    exact minLoop_some c d α p p.children _
      (fun ch hch b => minimax_fin c (d - 1) α b true ch)
      β XScore.posInf none 0 (Or.inr ⟨rfl, hne⟩)
  · simp only [if_pos rfl]
    exact maxLoop_some c d β p p.children _
      (fun ch hch a => minimax_fin c (d - 1) a β false ch)
      α XScore.negInf none 0 (Or.inr ⟨rfl, hne⟩)

/-- The returned move index, when present, indexes a legal move. -/
theorem minimax_bm_lt_length (c : Color) (d : Int) (α β : XScore) (t : Bool)
    (p : Position) (i : Nat) (hi : (minimax c d α β t p).2 = some i) :
    i < p.children.length := by
  by_cases hg : d = 0 ∨ p.children.length = 0
  · rw [minimax_leaf c d α β t p hg] at hi
    cases hi
  · rw [minimax.eq_def, if_neg hg] at hi
    cases t
    · simp only [Bool.false_eq_true, if_false] at hi
      rcases minLoop_bm c d α p p.children
        (fun m hmem => sizeOf_child_lt hmem) β XScore.posInf none 0 with h | h
      · rw [hi] at h; cases h
      · obtain ⟨j, hj, _, hj2⟩ := h
        rw [hi] at hj
        cases hj
        simpa using hj2
    · simp only [if_pos rfl, if_true] at hi
      rcases maxLoop_bm c d β p p.children
        (fun m hmem => sizeOf_child_lt hmem) α XScore.negInf none 0 with h | h
      · rw [hi] at h; cases h
      · obtain ⟨j, hj, _, hj2⟩ := h
        rw [hi] at hj
        cases hj
        simpa using hj2

/-! Full-window behaviour of the loops: with the infinite bound no cutoff
fires, the running best equals the folded plain value, and the selected
move is the first one achieving the final value. -/

theorem maxLoop_full (c : Color) (d : Int) (parent : Position) :
    ∀ (moves : List Position) (hm : ∀ m ∈ moves, sizeOf m < sizeOf parent)
      (TIH : ∀ ch ∈ moves, ∀ a : XScore, a < XScore.posInf →
        minimax_plain c (d - 1) false ch ≤
          (minimax c (d - 1) a XScore.posInf false ch).1 ∧
        (minimax c (d - 1) a XScore.posInf false ch).1 ≤
          max a (minimax_plain c (d - 1) false ch))
      (WF : ∀ ch ∈ moves, ∃ q, minimax_plain c (d - 1) false ch = XScore.fin q)
      (m : XScore) (bm : Option Nat) (idx : Nat), m < XScore.posInf →
      maxLoop c d XScore.posInf parent moves hm m m bm idx =
        ((moves.map (minimax_plain c (d - 1) false)).foldl max m,
         if m < (moves.map (minimax_plain c (d - 1) false)).foldl max m then
           firstHit (minimax_plain c (d - 1) false)
             ((moves.map (minimax_plain c (d - 1) false)).foldl max m) idx moves
         else bm) := by
  intro moves
  induction moves with
  | nil =>
    intro hm TIH WF m bm idx hmlt
    rw [maxLoop]
    simp [lt_irrefl]
  | cons ch rest ih =>
    intro hm TIH WF m bm idx hmlt
    rw [maxLoop_cons]
    set s := (minimax c (d - 1) m XScore.posInf false ch).1 with hs
    set w := minimax_plain c (d - 1) false ch with hw
    obtain ⟨hws, hsub⟩ := TIH ch (List.mem_cons_self ch rest) m hmlt
    rw [← hs, ← hw] at hws hsub
    obtain ⟨qw, hqw⟩ := WF ch (List.mem_cons_self ch rest)
    rw [← hw] at hqw
    have hwlt : w < XScore.posInf := by rw [hqw]; exact XScore.fin_lt_posInf qw
    have hms : max m s = max m w :=
      le_antisymm (max_le (le_max_left m w) hsub)
        (max_le_max (le_refl m) hws)
    have hmax_lt : max m s < XScore.posInf := by
      rw [hms]; exact max_lt hmlt hwlt
    rw [if_neg (not_le_of_lt hmax_lt)]
    rw [ih (fun x hx => hm x (List.mem_cons_of_mem ch hx))
      (fun x hx => TIH x (List.mem_cons_of_mem ch hx))
      (fun x hx => WF x (List.mem_cons_of_mem ch hx))
      (max m s) (if m < s then some idx else bm) (idx + 1) hmax_lt]
    simp only [List.map_cons, List.foldl_cons, ← hw]
    rw [hms]
    have hfh : firstHit (minimax_plain c (d - 1) false)
        ((rest.map (minimax_plain c (d - 1) false)).foldl max (max m w))
        idx (ch :: rest) =
      if w = (rest.map (minimax_plain c (d - 1) false)).foldl max (max m w) then
        some idx
      else firstHit (minimax_plain c (d - 1) false)
        ((rest.map (minimax_plain c (d - 1) false)).foldl max (max m w))
        (idx + 1) rest := by
      rw [firstHit, ← hw]
    by_cases hmw : m < w
    · rw [max_eq_right (le_of_lt hmw)]
      have hwr : w ≤ (rest.map (minimax_plain c (d - 1) false)).foldl max w :=
        le_foldl_max _ _
      have hmr : m < (rest.map (minimax_plain c (d - 1) false)).foldl max w :=
        lt_of_lt_of_le hmw hwr
      rw [if_pos hmr]
      rw [max_eq_right (le_of_lt hmw)] at hfh
      rw [hfh]
      by_cases hwr2 : w = (rest.map (minimax_plain c (d - 1) false)).foldl max w
      · rw [if_pos hwr2, ← hwr2, if_neg (lt_irrefl w)]
        rw [if_pos (lt_of_lt_of_le hmw hws)]
      · rw [if_neg hwr2, if_pos (lt_of_le_of_ne hwr hwr2)]
    · have hwm : w ≤ m := le_of_not_lt hmw
      rw [max_eq_left hwm]
      rw [max_eq_left hwm] at hfh
      have hsm : ¬ m < s := by
        rw [max_eq_left hwm] at hsub
        exact not_lt_of_le hsub
      rw [if_neg hsm]
      by_cases hmr : m < (rest.map (minimax_plain c (d - 1) false)).foldl max m
      · rw [if_pos hmr, if_pos hmr, hfh]
        have : w ≠ (rest.map (minimax_plain c (d - 1) false)).foldl max m :=
          ne_of_lt (lt_of_le_of_lt hwm hmr)
        rw [if_neg this]
      · rw [if_neg hmr, if_neg hmr]

theorem minLoop_full (c : Color) (d : Int) (parent : Position) :
    ∀ (moves : List Position) (hm : ∀ m ∈ moves, sizeOf m < sizeOf parent)
      (TIH : ∀ ch ∈ moves, ∀ b : XScore, XScore.negInf < b →
        min b (minimax_plain c (d - 1) true ch) ≤
          (minimax c (d - 1) XScore.negInf b true ch).1 ∧
        (minimax c (d - 1) XScore.negInf b true ch).1 ≤
          minimax_plain c (d - 1) true ch)
      (WF : ∀ ch ∈ moves, ∃ q, minimax_plain c (d - 1) true ch = XScore.fin q)
      (m : XScore) (bm : Option Nat) (idx : Nat), XScore.negInf < m →
      minLoop c d XScore.negInf parent moves hm m m bm idx =
        ((moves.map (minimax_plain c (d - 1) true)).foldl min m,
         if (moves.map (minimax_plain c (d - 1) true)).foldl min m < m then
           firstHit (minimax_plain c (d - 1) true)
             ((moves.map (minimax_plain c (d - 1) true)).foldl min m) idx moves
         else bm) := by
  intro moves
  induction moves with
  | nil =>
    intro hm TIH WF m bm idx hmlt
    rw [minLoop]
    simp [lt_irrefl]
  | cons ch rest ih =>
    intro hm TIH WF m bm idx hmlt
    rw [minLoop_cons]
    set s := (minimax c (d - 1) XScore.negInf m true ch).1 with hs
    set w := minimax_plain c (d - 1) true ch with hw
    obtain ⟨hls, hsw⟩ := TIH ch (List.mem_cons_self ch rest) m hmlt
    rw [← hs, ← hw] at hls hsw
    obtain ⟨qw, hqw⟩ := WF ch (List.mem_cons_self ch rest)
    rw [← hw] at hqw
    have hwgt : XScore.negInf < w := by
      rw [hqw]; exact XScore.negInf_lt_fin qw
    have hms : min m s = min m w :=
      le_antisymm (min_le_min (le_refl m) hsw)
        (le_min (min_le_left m w) hls)
    have hmin_gt : XScore.negInf < min m s := by
      rw [hms]; exact lt_min hmlt hwgt
    rw [if_neg (not_le_of_lt hmin_gt)]
    rw [ih (fun x hx => hm x (List.mem_cons_of_mem ch hx))
      (fun x hx => TIH x (List.mem_cons_of_mem ch hx))
      (fun x hx => WF x (List.mem_cons_of_mem ch hx))
      (min m s) (if s < m then some idx else bm) (idx + 1) hmin_gt]
    simp only [List.map_cons, List.foldl_cons, ← hw]
    rw [hms]
    have hfh : firstHit (minimax_plain c (d - 1) true)
        ((rest.map (minimax_plain c (d - 1) true)).foldl min (min m w))
        idx (ch :: rest) =
      if w = (rest.map (minimax_plain c (d - 1) true)).foldl min (min m w) then
        some idx
      else firstHit (minimax_plain c (d - 1) true)
        ((rest.map (minimax_plain c (d - 1) true)).foldl min (min m w))
        (idx + 1) rest := by
      rw [firstHit, ← hw]
    by_cases hwm : w < m
    · rw [min_eq_right (le_of_lt hwm)]
      have hrw : (rest.map (minimax_plain c (d - 1) true)).foldl min w ≤ w :=
        foldl_min_le _ _
      have hrm : (rest.map (minimax_plain c (d - 1) true)).foldl min w < m :=
        lt_of_le_of_lt hrw hwm
      rw [if_pos hrm]
      rw [min_eq_right (le_of_lt hwm)] at hfh
      rw [hfh]
      by_cases hwr2 : w = (rest.map (minimax_plain c (d - 1) true)).foldl min w
      · rw [if_pos hwr2, ← hwr2, if_neg (lt_irrefl w)]
        rw [if_pos (lt_of_le_of_lt hsw hwm)]
      · rw [if_neg hwr2, if_pos (lt_of_le_of_ne hrw (Ne.symm hwr2))]
    · have hmw : m ≤ w := le_of_not_lt hwm
      rw [min_eq_left hmw]
      rw [min_eq_left hmw] at hfh
      have hsm : ¬ s < m := by
        rw [min_eq_left hmw] at hls
        exact not_lt_of_le hls
      rw [if_neg hsm]
      by_cases hmr : (rest.map (minimax_plain c (d - 1) true)).foldl min m < m
      · rw [if_pos hmr, if_pos hmr, hfh]
        have : w ≠ (rest.map (minimax_plain c (d - 1) true)).foldl min m :=
          Ne.symm (ne_of_lt (lt_of_lt_of_le hmr hmw))
        rw [if_neg this]
      · rw [if_neg hmr, if_neg hmr]

/-- Full-window maximizing call: the score is the unpruned value and the
selected move is the first child achieving it. -/
theorem minimax_full_max (c : Color) (d : Int) (p : Position)
    (hd : d ≠ 0) (hc : p.children.length ≠ 0) :
    minimax c d XScore.negInf XScore.posInf true p =
      (minimax_plain c d true p,
       firstHit (minimax_plain c (d - 1) false) (minimax_plain c d true p)
         0 p.children) := by
  have hg : ¬(d = 0 ∨ p.children.length = 0) := by
    intro h; rcases h with h | h
    · exact hd h
    · exact hc h
  rw [minimax.eq_def, if_neg hg]
  simp only [if_pos rfl, if_true]
  rw [maxLoop_full c d p p.children (fun m hmem => sizeOf_child_lt hmem)
    (fun ch hch a ha => by
      obtain ⟨h1, h2⟩ := ab_bounds c ch (d - 1) false a XScore.posInf ha
      rw [XScore.posInf_min] at h1
      exact ⟨h1, h2⟩)
    (fun ch hch => plain_fin c (d - 1) false ch)
    XScore.negInf none 0 XScore.negInf_lt_posInf]
  rw [← plain_max_unfold c d p hg]
  obtain ⟨q, hq⟩ := plain_fin c d true p
  have hlt : XScore.negInf < minimax_plain c d true p := by
    rw [hq]; exact XScore.negInf_lt_fin q
  rw [if_pos hlt]

/-- Full-window minimizing call, dual to minimax_full_max. -/
theorem minimax_full_min (c : Color) (d : Int) (p : Position)
    (hd : d ≠ 0) (hc : p.children.length ≠ 0) :
    minimax c d XScore.negInf XScore.posInf false p =
      (minimax_plain c d false p,
       firstHit (minimax_plain c (d - 1) true) (minimax_plain c d false p)
         0 p.children) := by
  have hg : ¬(d = 0 ∨ p.children.length = 0) := by
    intro h; rcases h with h | h
    · exact hd h
    · exact hc h
  rw [minimax.eq_def, if_neg hg]
  simp only [Bool.false_eq_true, if_false]
  rw [minLoop_full c d p p.children (fun m hmem => sizeOf_child_lt hmem)
    (fun ch hch b hb => by
      obtain ⟨h1, h2⟩ := ab_bounds c ch (d - 1) true XScore.negInf b hb
      rw [XScore.negInf_max] at h2
      exact ⟨h1, h2⟩)
    (fun ch hch => plain_fin c (d - 1) true ch)
    XScore.posInf none 0 (by
      obtain ⟨q, hq⟩ := plain_fin c d false p
      exact XScore.negInf_lt_posInf)]
  rw [← plain_min_unfold c d p hg]
  obtain ⟨q, hq⟩ := plain_fin c d false p
  have hlt : minimax_plain c d false p < XScore.posInf := by
    rw [hq]; exact XScore.fin_lt_posInf q
  rw [if_pos hlt]

/-- firstHit finds a position achieving the value, at the first index at
or after the start index. -/
theorem firstHit_spec (f : Position → XScore) (v : XScore) :
    ∀ (l : List Position) (idx j : Nat), firstHit f v idx l = some j →
      idx ≤ j ∧ j - idx < l.length ∧
        ∃ ch, l[j - idx]? = some ch ∧ f ch = v := by
  intro l
  induction l with
  | nil =>
    intro idx j h
    simp [firstHit] at h
  | cons ch rest ih =>
    intro idx j h
    rw [firstHit] at h
    by_cases hfv : f ch = v
    · rw [if_pos hfv] at h
      injection h with h
      subst h
      exact ⟨le_refl idx, by simp, ch, by simp, hfv⟩
    · rw [if_neg hfv] at h
      obtain ⟨h1, h2, ch', hch', hfc⟩ := ih (idx + 1) j h
      refine ⟨by omega, by simp only [List.length_cons]; omega, ch', ?_, hfc⟩
      have hji : j - idx = (j - (idx + 1)) + 1 := by omega
      rw [hji, List.getElem?_cons_succ]
      exact hch'

/-! Claim C3: the leaf contract. -/

/-- C3. At depth 0, and at any depth on a position with no legal moves,
minimax returns the static evaluation of the current position from the
engine's perspective paired with no move. -/
theorem minimax_leaf_returns_eval (c : Color) (p : Position) (d : Int)
    (α β : XScore) (t : Bool) (h : d = 0 ∨ p.children.length = 0) :
    minimax c d α β t p = (XScore.fin (evaluate_board c p), none) :=
  minimax_leaf c d α β t p h

/-- Witness for C3 at depth 0 on a concrete non-terminal position. -/
theorem minimax_leaf_returns_eval_example :
    ((0 : Int) = 0 ∨ posOne.children.length = 0) ∧
      minimax true 0 XScore.negInf XScore.posInf true posOne =
        (XScore.fin (evaluate_board true posOne), none) :=
  ⟨Or.inl rfl,
   minimax_leaf_returns_eval true posOne 0 XScore.negInf XScore.posInf true
     (Or.inl rfl)⟩

/-! Claim C6: only depth exactly 0 is guarded, not every depth below 0. -/

/-- C6 counterexample: at depth -1, on a position that still has a legal
move, minimax does not return the pair (static evaluation, no move): the
guard tests depth == 0 only, so the call searches instead of returning
immediately. -/
theorem minimax_negative_depth_counterexample :
    minimax true (-1) XScore.negInf XScore.posInf true posOne ≠
      (XScore.fin (evaluate_board true posOne), none) := by
  intro h
  obtain ⟨j, hj⟩ := minimax_some true (-1) XScore.negInf XScore.posInf true
    posOne (by decide) (by decide)
  rw [h] at hj
  cases hj

/-- C6 (amended). A call to minimax returns immediately with the static
evaluation of the current position and no move exactly when the depth
argument equals 0 or the position is already terminal; a negative depth is
not detected by the guard and the call searches on. -/
theorem minimax_guard_iff (c : Color) (p : Position) (d : Int)
    (α β : XScore) (t : Bool) :
    minimax c d α β t p = (XScore.fin (evaluate_board c p), none) ↔
      (d = 0 ∨ p.children.length = 0) := by
  constructor
  · intro h
    by_contra hg
    push_neg at hg
    obtain ⟨j, hj⟩ := minimax_some c d α β t p hg.1 hg.2
    rw [h] at hj
    cases hj
  · exact minimax_leaf c d α β t p

/-! Claim C5: ties are broken towards the first move in enumeration
order. -/

/-- C5. In both the maximizing and the minimizing branch the best move is
replaced only on a strictly better score, so on the full window the
returned move is the first move, in the enumeration order supplied by the
position, whose subtree value equals the extremal (returned) value; a
later sibling achieving the same score is never returned. -/
theorem minimax_first_best_move (c : Color) (p : Position) (d : Int)
    (hd : d ≠ 0) (hc : p.children.length ≠ 0) :
    (minimax c d XScore.negInf XScore.posInf true p).2 =
      firstHit (minimax_plain c (d - 1) false) (minimax_plain c d true p)
        0 p.children ∧
    (minimax c d XScore.negInf XScore.posInf false p).2 =
      firstHit (minimax_plain c (d - 1) true) (minimax_plain c d false p)
        0 p.children := by
  rw [minimax_full_max c d p hd hc, minimax_full_min c d p hd hc]
  exact ⟨rfl, rfl⟩

/-- Witness for C5 on a position with two tied moves. -/
theorem minimax_first_best_move_example :
    (1 : Int) ≠ 0 ∧ posTie.children.length ≠ 0 ∧
      ((minimax true 1 XScore.negInf XScore.posInf true posTie).2 =
        firstHit (minimax_plain true 0 false) (minimax_plain true 1 true posTie)
          0 posTie.children ∧
      (minimax true 1 XScore.negInf XScore.posInf false posTie).2 =
        firstHit (minimax_plain true 0 true) (minimax_plain true 1 false posTie)
          0 posTie.children) :=
  ⟨by decide, by decide,
   minimax_first_best_move true posTie 1 (by decide) (by decide)⟩

/-! Claim C7: when the best move is empty, and what it achieves when it is
not. -/

/-- C7. The returned best move is empty exactly when the node is a leaf
(depth 0 or no legal move); otherwise it is the index of one of the
position's legal moves, and on the full window the subtree of the returned
move achieves exactly the returned score. -/
theorem minimax_best_move_invariant (c : Color) (p : Position) (d : Int)
    (α β : XScore) (t : Bool) (i : Nat) :
    ((minimax c d α β t p).2 = none ↔ (d = 0 ∨ p.children.length = 0)) ∧
    ((minimax c d α β t p).2 = some i → i < p.children.length) ∧
    ((minimax c d XScore.negInf XScore.posInf t p).2 = some i →
      ∃ ch, p.children[i]? = some ch ∧
        minimax_plain c (d - 1) (!t) ch =
          (minimax c d XScore.negInf XScore.posInf t p).1) := by
  refine ⟨⟨?_, ?_⟩, ?_, ?_⟩
  · intro h
    by_contra hg
    push_neg at hg
    obtain ⟨j, hj⟩ := minimax_some c d α β t p hg.1 hg.2
    rw [h] at hj
    cases hj
  · intro h
    rw [minimax_leaf c d α β t p h]
  · exact minimax_bm_lt_length c d α β t p i
  · intro hi
    by_cases hg : d = 0 ∨ p.children.length = 0
    · rw [minimax_leaf c d XScore.negInf XScore.posInf t p hg] at hi
      cases hi
    · push_neg at hg
      cases t
      · rw [minimax_full_min c d p hg.1 hg.2] at hi
        obtain ⟨_, _, ch, hch, hfc⟩ :=
          firstHit_spec (minimax_plain c (d - 1) true)
            (minimax_plain c d false p) p.children 0 i hi
        rw [minimax_full_min c d p hg.1 hg.2]
        refine ⟨ch, by simpa using hch, ?_⟩
        simpa using hfc
      · rw [minimax_full_max c d p hg.1 hg.2] at hi
        obtain ⟨_, _, ch, hch, hfc⟩ :=
          firstHit_spec (minimax_plain c (d - 1) false)
            (minimax_plain c d true p) p.children 0 i hi
        rw [minimax_full_max c d p hg.1 hg.2]
        refine ⟨ch, by simpa using hch, ?_⟩
        simpa using hfc

/-- Witness for C7 on a concrete non-leaf position: the returned move is
move 0, it is legal, and its subtree value is the returned score. -/
theorem minimax_best_move_invariant_example :
    (minimax true 1 XScore.negInf XScore.posInf true posOne).2 = some 0 ∧
      0 < posOne.children.length ∧
      ∃ ch, posOne.children[0]? = some ch ∧
        minimax_plain true (1 - 1) (!true) ch =
          (minimax true 1 XScore.negInf XScore.posInf true posOne).1 := by
  have h := minimax_best_move_invariant true posOne 1 XScore.negInf
    XScore.posInf true 0
  have hv : minimax_plain true 1 true posOne =
      minimax_plain true (1 - 1) false posEmpty := by
    rw [plain_max_unfold true 1 posOne (by decide)]
    simp [posOne]
  have h2 : (minimax true 1 XScore.negInf XScore.posInf true posOne).2 =
      some 0 := by
    rw [minimax_full_max true 1 posOne (by decide) (by decide)]
    show firstHit (minimax_plain true (1 - 1) false)
      (minimax_plain true 1 true posOne) 0 posOne.children = some 0
    rw [hv]
    show firstHit (minimax_plain true (1 - 1) false)
      (minimax_plain true (1 - 1) false posEmpty) 0 [posEmpty] = some 0
    rw [firstHit, if_pos rfl]
  exact ⟨h2, h.2.1 h2, h.2.2 h2⟩

end ChessBot
